import Mathlib

/-!
# Verification of the distle distance-matrix core

Shallow embedding of the distle pipeline (an all-pairs Hamming-distance tool
over equal-length sequences) and proofs of its specified properties.

The repository's `src/main.rs` drives the pipeline:
ingestion (`read_and_parse_fasta` / `read_and_parse_tabular`) → column pruning
(`remove_identical_columns`) → pairwise distances (`compute_distances`).
The bodies of the `processing` and `types` modules are not part of the
checked-in sources, so those components are modelled here from the
specification; `main.rs` itself is embedded as `runPipeline`.
-/

namespace Distle

/-- A sequence symbol: a single character (FASTA) or a short token (tabular). -/
abbrev Symbol := String

/-- Modelled from the spec: the Sequence Store, an ordered mapping from sample
identifier to its sequence of symbols, insertion order preserved. -/
abbrev Store := List (String × List Symbol)

/-- A Distance Matrix Entry: (row sample id, column sample id, distance). -/
abbrev Entry := String × String × Nat

/-- Modelled from the spec: the input-format selector of `types::InputFormat`
(`fasta | fasta-all | tabular` sub-variants). -/
inductive InputFormat where
  | fasta
  | fastaAll
  | tabular
deriving DecidableEq

/-- Modelled from the spec: the output-format selector of
`processing::OutputFormat` (`tabular | matrix`). -/
inductive OutputFormat where
  | tabular
  | matrix
deriving DecidableEq

/-- Modelled from the spec: the output arrangement mode of
`processing::OutputMode` (`lower-triangle | full`). -/
inductive OutputMode where
  | lowerTriangle
  | full
deriving DecidableEq

/-- The command-line options of `Cli` in `src/main.rs` (lines 18–58).  There is
no field that enables or disables column pruning. -/
structure Cli where
  input : String
  output : String
  input_format : InputFormat
  output_format : OutputFormat
  input_sep : Char
  output_sep : Char
  output_mode : OutputMode
  maxdist : Option Nat
  skip_header : Bool
  verbose : Bool

/-- The Hamming distance as the spec words it: the count of positions at which
the two equal-length sequences differ. -/
def hammingDistance (a b : List Symbol) : Nat :=
  (List.zip a b).countP (fun p => p.1 != p.2)

/-- Modelled from the spec: the per-pair distance scan of the Distance Engine.
Positions are compared left to right, counting mismatches; with a maxdist
threshold, once the running count exceeds the threshold the scan stops
immediately and the exact count reached at the cutoff point is reported
(the documented early-exit policy, applied uniformly to all pairs). -/
def pairDistance : Option Nat → List Symbol → List Symbol → Nat
  | m, x :: xs, y :: ys =>
    if x = y then pairDistance m xs ys
    else
      match m with
      | none => pairDistance none xs ys + 1
      | some 0 => 1
      | some (t + 1) => pairDistance (some t) xs ys + 1
  | _, _, _ => 0

/-- Row `i` of the store (with a dummy default off the end). -/
def nthRow (store : Store) (i : Nat) : String × List Symbol :=
  store.getD i ("", [])

/-- Modelled from the spec: `processing::compute_distances`.  Enumerates the
required sample pairs in a stable order (outer loop by row index ascending,
inner loop by column index ascending): in lower-triangle mode the pairs
`(i, j)` with `j < i`, in full mode every ordered pair including the
diagonal, and reports `pairDistance` for each. -/
def compute_distances (store : Store) (maxdist : Option Nat) (mode : OutputMode) :
    List Entry :=
  match mode with
  | OutputMode.lowerTriangle =>
      (List.range store.length).flatMap (fun i =>
        (List.range i).map (fun j =>
          ((nthRow store i).1, (nthRow store j).1,
            pairDistance maxdist (nthRow store i).2 (nthRow store j).2)))
  | OutputMode.full =>
      (List.range store.length).flatMap (fun i =>
        (List.range store.length).map (fun j =>
          ((nthRow store i).1, (nthRow store j).1,
            pairDistance maxdist (nthRow store i).2 (nthRow store j).2)))

/-- Whether column `c` is identical across every row: every row carries the
same symbol at position `c` as the first row. -/
def columnIdentical (rows : List (List Symbol)) (c : Nat) : Bool :=
  match rows with
  | [] => true
  | s :: rest => rest.all (fun r => decide (r[c]? = s[c]?))

/-- The position indices below `L` that are kept by the Column Pruner: those
at which not all rows agree, in ascending order. -/
def keptIndices (rows : List (List Symbol)) (L : Nat) : List Nat :=
  (List.range L).filter (fun c => !(columnIdentical rows c))

/-- Modelled from the spec: `processing::remove_identical_columns`.  Removes
every position index at which all sequences hold an identical symbol and
returns the count of removed positions together with the updated store
(the Rust function mutates the store in place and returns the count). -/
def remove_identical_columns (store : Store) : Nat × Store :=
  let rows := store.map Prod.snd
  let L := ((store.headD ("", [])).2).length
  let kept := keptIndices rows L
  ((List.range L).countP (fun c => columnIdentical rows c),
   store.map (fun p => (p.1, kept.filterMap (fun c => p.2[c]?))))

/-- The kept-column index list used by `remove_identical_columns`. -/
def prunerKept (store : Store) : List Nat :=
  keptIndices (store.map Prod.snd) ((store.headD ("", [])).2).length

/-- Drop trailing whitespace from a line. -/
def trimEnd (cs : List Char) : List Char :=
  (cs.reverse.dropWhile Char.isWhitespace).reverse

/-- Split a line on a separator character (like `String.splitOn` with a
one-character separator). -/
def splitOnChar (sep : Char) : List Char → List (List Char)
  | [] => [[]]
  | c :: rest =>
    let r := splitOnChar sep rest
    if c = sep then [] :: r
    else (c :: r.headD []) :: r.tail

/-- Modelled from the spec: the FASTA record scanner.  A line starting with
`>` begins a record whose identifier is the rest of the line; subsequent
lines until the next marker are concatenated (line-ending whitespace
stripped), one single-character symbol per character.  Lines before the
first marker are ignored. -/
def fastaRecordsAux : Option (String × List Symbol) → List (List Char) →
    List (String × List Symbol)
  | cur, [] => cur.toList
  | cur, line :: rest =>
    match line with
    | '>' :: name => cur.toList ++ fastaRecordsAux (some (String.mk name, [])) rest
    | _ =>
      match cur with
      | none => fastaRecordsAux none rest
      | some (n, s) =>
          fastaRecordsAux (some (n, s ++ (trimEnd line).map Char.toString)) rest

/-- The FASTA records scanned from the raw input lines. -/
def fastaRecords (lines : List String) : Store :=
  fastaRecordsAux none (lines.map String.data)

/-- Modelled from the spec: `processing::read_and_parse_fasta`.  Parses the
lines into records, then fails on empty input (no records), on an empty
identifier, or on a record whose sequence length disagrees with the first
record's length; both FASTA sub-modes accept symbols verbatim here. -/
def read_and_parse_fasta (lines : List String) (_fmt : InputFormat) :
    Except String Store :=
  if (fastaRecords lines).isEmpty then Except.error "no records found"
  else if (fastaRecords lines).any (fun r => decide (r.1 = "")) then
    Except.error "empty identifier"
  else if (fastaRecords lines).all (fun r =>
      decide (r.2.length = ((fastaRecords lines).headD ("", [])).2.length)) then
    Except.ok (fastaRecords lines)
  else Except.error "sequence lengths differ"

/-- The per-line field lists of the tabular input: the header is optionally
skipped, empty lines are dropped, every remaining line is split on the
separator. -/
def tabularFields (lines : List String) (sep : Char) (skipHeader : Bool) :
    List (List (List Char)) :=
  (((if skipHeader then lines.drop 1 else lines).map String.data).filter
    (fun l => !l.isEmpty)).map (fun l => splitOnChar sep l)

/-- The Sequence Store built from the tabular field lists: first field the
identifier, remaining fields the per-position symbols. -/
def tabularStore (lines : List String) (sep : Char) (skipHeader : Bool) : Store :=
  (tabularFields lines sep skipHeader).map
    (fun f => (String.mk (f.headD []), f.tail.map String.mk))

/-- Modelled from the spec: `processing::read_and_parse_tabular`.  Fails on
empty input, on a line without a separator, on an empty identifier, or on
a row whose field count disagrees with the first row's. -/
def read_and_parse_tabular (lines : List String) (_fmt : InputFormat) (sep : Char)
    (skipHeader : Bool) : Except String Store :=
  if (tabularFields lines sep skipHeader).isEmpty then
    Except.error "no records found"
  else if (tabularFields lines sep skipHeader).any
      (fun f => decide (f.length < 2)) then
    Except.error "missing separator"
  else if (tabularFields lines sep skipHeader).any
      (fun f => decide (f.headD [] = [])) then
    Except.error "empty identifier"
  else if (tabularStore lines sep skipHeader).all (fun r =>
      decide (r.2.length =
        ((tabularStore lines sep skipHeader).headD ("", [])).2.length)) then
    Except.ok (tabularStore lines sep skipHeader)
  else Except.error "sequence lengths differ"

/-- The ingestion dispatch of `main` (`src/main.rs` lines 83–88): FASTA formats
go to the FASTA parser, everything else to the tabular parser. -/
def ingest (opts : Cli) (lines : List String) : Except String Store :=
  match opts.input_format with
  | InputFormat.fasta | InputFormat.fastaAll =>
      read_and_parse_fasta lines opts.input_format
  | InputFormat.tabular =>
      read_and_parse_tabular lines opts.input_format opts.input_sep opts.skip_header

/-- The pipeline of `main` (`src/main.rs` lines 83–104): ingest, then
unconditionally prune identical columns once, then compute the pairwise
distances over the pruned store. -/
def runPipeline (opts : Cli) (lines : List String) : Except String (List Entry) := do
  let store ← ingest opts lines
  let pruned := remove_identical_columns store
  pure (compute_distances pruned.2 opts.maxdist opts.output_mode)

/-- All sequences in the store have length `L`. -/
def storeWF (store : Store) (L : Nat) : Prop :=
  ∀ p ∈ store, p.2.length = L

end Distle

namespace Distle

/-! ## Properties of the per-pair distance scan -/

/-- Without a threshold the scan computes exactly the Hamming distance. -/
theorem pairDistance_none_eq (a : List Symbol) :
    ∀ b, pairDistance none a b = hammingDistance a b := by
  induction a with
  | nil => intro b; cases b <;> simp [pairDistance, hammingDistance]
  | cons x xs ih =>
    intro b
    cases b with
    | nil => simp [pairDistance, hammingDistance]
    | cons y ys =>
      by_cases h : x = y <;>
        simp [pairDistance, hammingDistance, h, ih, List.countP_cons, List.zip_cons_cons]

/-- With threshold `T` the scan reports the Hamming distance capped at
`T + 1` (the count reached when the threshold is first exceeded). -/
theorem pairDistance_some_eq (a : List Symbol) :
    ∀ b T, pairDistance (some T) a b = min (hammingDistance a b) (T + 1) := by
  induction a with
  | nil => intro b T; cases b <;> simp [pairDistance, hammingDistance]
  | cons x xs ih =>
    intro b T
    cases b with
    | nil => simp [pairDistance, hammingDistance]
    | cons y ys =>
      by_cases h : x = y
      · simp [pairDistance, hammingDistance, h, ih, List.countP_cons, List.zip_cons_cons]
      · cases T with
        | zero =>
          simp [pairDistance, hammingDistance, h, List.countP_cons, List.zip_cons_cons]
        | succ t =>
          have := ih ys t
          simp [pairDistance, hammingDistance, h, List.countP_cons,
            List.zip_cons_cons] at this ⊢
          omega

/-- The scan is symmetric in its two sequences. -/
theorem pairDistance_comm (a : List Symbol) :
    ∀ b m, pairDistance m a b = pairDistance m b a := by
  induction a with
  | nil => intro b m; cases b <;> simp [pairDistance]
  | cons x xs ih =>
    intro b m
    cases b with
    | nil => simp [pairDistance]
    | cons y ys =>
      by_cases h : x = y
      · simp [pairDistance, h, ih]
      · have h' : ¬(y = x) := fun hh => h hh.symm
        cases m with
        | none => simp [pairDistance, h, h', ih]
        | some t => cases t <;> simp [pairDistance, h, h', ih]

/-- A sequence is at distance 0 from itself under every threshold. -/
theorem pairDistance_self (a : List Symbol) (m : Option Nat) :
    pairDistance m a a = 0 := by
  induction a with
  | nil => simp [pairDistance]
  | cons x xs ih => simp [pairDistance, ih]

/-! ## Selecting a sublist of positions -/

/-- Unfolding the position selection over a cons cell. -/
theorem select_cons (p : Nat → Bool) (s : Symbol) (ss : List Symbol) :
    ((List.range (ss.length + 1)).filter p).filterMap (fun c => (s :: ss)[c]?) =
      (if p 0 then [s] else []) ++
        ((List.range ss.length).filter (fun c => p (c + 1))).filterMap
          (fun c => ss[c]?) := by
  rw [List.range_succ_eq_map, List.filter_cons]
  by_cases h0 : p 0 = true
  · simp [h0, List.filter_map, List.filterMap_map, Function.comp_def]
  · simp [h0, List.filter_map, List.filterMap_map, Function.comp_def]

/-- Dropping positions at which the two sequences agree does not change the
scanned distance, threshold or not: the mismatch positions met, in order,
are the same. -/
theorem pairDistance_select (a : List Symbol) :
    ∀ (p : Nat → Bool) (b : List Symbol) (m : Option Nat),
      a.length = b.length →
      (∀ c, p c = false → a[c]? = b[c]?) →
      pairDistance m (((List.range a.length).filter p).filterMap (fun c => a[c]?))
          (((List.range a.length).filter p).filterMap (fun c => b[c]?)) =
        pairDistance m a b := by
  induction a with
  | nil =>
    intro p b m hlen _
    have hb : b = [] := by
      cases b with
      | nil => rfl
      | cons y ys => simp at hlen
    subst hb
    simp [pairDistance]
  | cons x xs ih =>
    intro p b m hlen hagree
    cases b with
    | nil => simp at hlen
    | cons y ys =>
      have hlen' : xs.length = ys.length := by simpa using hlen
      have hagree' : ∀ c, p (c + 1) = false → xs[c]? = ys[c]? := by
        intro c hc
        have := hagree (c + 1) hc
        simpa using this
      have hx : ((List.range (x :: xs).length).filter p).filterMap
          (fun c => (x :: xs)[c]?) =
          (if p 0 then [x] else []) ++
            ((List.range xs.length).filter (fun c => p (c + 1))).filterMap
              (fun c => xs[c]?) := by
        simpa using select_cons p x xs
      have hy : ((List.range (x :: xs).length).filter p).filterMap
          (fun c => (y :: ys)[c]?) =
          (if p 0 then [y] else []) ++
            ((List.range xs.length).filter (fun c => p (c + 1))).filterMap
              (fun c => ys[c]?) := by
        have h1 : (x :: xs).length = ys.length + 1 := by simpa using hlen
        rw [h1, select_cons p y ys, ← hlen']
      rw [hx, hy]
      have ihx := ih (fun c => p (c + 1)) ys m hlen' hagree'
      by_cases h0 : p 0 = true
      · simp only [h0, if_pos]
        by_cases hxy : x = y
        · simp [pairDistance, hxy, ihx]
        · cases m with
          | none => simp [pairDistance, hxy, ihx]
          | some t =>
            cases t with
            | zero => simp [pairDistance, hxy]
            | succ t =>
              simp [pairDistance, hxy,
                ih (fun c => p (c + 1)) ys (some t) hlen' hagree']
      · have h0' : p 0 = false := by
          cases hh : p 0
          · rfl
          · exact absurd hh h0
        have hxy : x = y := by
          have := hagree 0 h0'
          simpa using this
        rw [h0']
        simp only [Bool.false_eq_true, if_neg, List.nil_append, not_false_iff]
        rw [ihx]
        simp [pairDistance, hxy]

/-- Selecting in-bounds indices keeps the index count. -/
theorem filterMap_getElem?_length (s : List Symbol) (idxs : List Nat)
    (h : ∀ i ∈ idxs, i < s.length) :
    (idxs.filterMap (fun c => s[c]?)).length = idxs.length := by
  induction idxs with
  | nil => simp
  | cons i is ih =>
    have hi : i < s.length := h i (by simp)
    have hv : s[i]? = some s[i] := List.getElem?_eq_getElem hi
    simp [List.filterMap_cons, hv, ih (fun j hj => h j (List.mem_cons_of_mem _ hj))]

/-- Position `j` of the selection is the element at the `j`-th selected
index. -/
theorem filterMap_getElem?_getElem? (s : List Symbol) (idxs : List Nat)
    (h : ∀ i ∈ idxs, i < s.length) (j : Nat) :
    (idxs.filterMap (fun c => s[c]?))[j]? = idxs[j]?.bind (fun c => s[c]?) := by
  induction idxs generalizing j with
  | nil => simp
  | cons i is ih =>
    have hi : i < s.length := h i (by simp)
    have hv : s[i]? = some s[i] := List.getElem?_eq_getElem hi
    cases j with
    | zero => simp [List.filterMap_cons, hv]
    | succ j =>
      simp [List.filterMap_cons, hv, ih (fun k hk => h k (List.mem_cons_of_mem _ hk)) j]

/-- Selecting every index of a sequence reproduces the sequence. -/
theorem filterMap_getElem?_range (s : List Symbol) :
    (List.range s.length).filterMap (fun c => s[c]?) = s := by
  induction s with
  | nil => simp
  | cons x xs ih =>
    have h1 : (x :: xs).length = xs.length + 1 := rfl
    rw [h1, List.range_succ_eq_map]
    simp only [List.filterMap_cons, List.getElem?_cons_zero, List.filterMap_map]
    rw [show ((fun c => (x :: xs)[c]?) ∘ Nat.succ) = (fun c => xs[c]?) by
      funext c; simp]
    rw [ih]

/-! ## Properties of the Column Pruner -/

/-- A column is identical exactly when every two rows agree at it. -/
theorem columnIdentical_iff (rows : List (List Symbol)) (c : Nat) :
    columnIdentical rows c = true ↔ ∀ a ∈ rows, ∀ b ∈ rows, a[c]? = b[c]? := by
  cases rows with
  | nil => simp [columnIdentical]
  | cons s rest =>
    simp only [columnIdentical, List.all_eq_true, decide_eq_true_iff]
    constructor
    · intro h a ha b hb
      have key : ∀ x ∈ s :: rest, x[c]? = s[c]? := by
        intro x hx
        rcases List.mem_cons.mp hx with rfl | hx
        · rfl
        · exact h x hx
      rw [key a ha, key b hb]
    · intro h r hr
      exact h r (List.mem_cons_of_mem _ hr) s (List.mem_cons_self _ _)

/-- A column is non-identical exactly when two rows disagree at it. -/
theorem columnIdentical_eq_false (rows : List (List Symbol)) (c : Nat) :
    columnIdentical rows c = false ↔
      ¬∀ a ∈ rows, ∀ b ∈ rows, a[c]? = b[c]? := by
  rw [← columnIdentical_iff]
  cases columnIdentical rows c <;> simp

/-- Membership in the kept-index list. -/
theorem keptIndices_mem (rows : List (List Symbol)) (L : Nat) (c : Nat) :
    c ∈ keptIndices rows L ↔ c < L ∧ ¬(columnIdentical rows c = true) := by
  simp [keptIndices, List.mem_filter, List.mem_range]

/-- The kept indices are strictly increasing. -/
theorem keptIndices_sorted (rows : List (List Symbol)) (L : Nat) :
    List.Pairwise (· < ·) (keptIndices rows L) :=
  List.Pairwise.sublist (List.filter_sublist _) (List.pairwise_lt_range L)

/-- A predicate and its negation partition a list's elements. -/
theorem countP_not_length (p : Nat → Bool) (l : List Nat) :
    l.countP p + l.countP (fun c => !(p c)) = l.length := by
  induction l with
  | nil => simp
  | cons x xs ih =>
    by_cases h : p x = true
    · simp [List.countP_cons, h]
      omega
    · have h' : p x = false := by
        cases hh : p x
        · rfl
        · exact absurd hh h
      simp [List.countP_cons, h']
      omega

/-- The two components of `remove_identical_columns`, unfolded. -/
theorem remove_identical_columns_snd (store : Store) :
    (remove_identical_columns store).2 =
      store.map (fun p => (p.1, (prunerKept store).filterMap (fun c => p.2[c]?))) := rfl

/-- The removed-column count of `remove_identical_columns`, unfolded. -/
theorem remove_identical_columns_fst (store : Store) :
    (remove_identical_columns store).1 =
      (List.range ((store.headD ("", [])).2).length).countP
        (fun c => columnIdentical (store.map Prod.snd) c) := rfl

/-- In a nonempty well-formed store the first row has the common length. -/
theorem headD_length (store : Store) (L : Nat) (hwf : storeWF store L)
    (hne : store ≠ []) : ((store.headD ("", [])).2).length = L := by
  cases store with
  | nil => exact absurd rfl hne
  | cons q qs => exact hwf q (by simp)

end Distle

namespace Distle

/-! ## Pruning preserves all computed distances -/

/-- `nthRow` commutes with mapping a function over the store. -/
theorem nthRow_map (f : String × List Symbol → String × List Symbol) (store : Store)
    (i : Nat) (hi : i < store.length) :
    nthRow (store.map f) i = f (nthRow store i) := by
  unfold nthRow
  rw [List.getD_eq_getElem?_getD, List.getD_eq_getElem?_getD, List.getElem?_map,
    List.getElem?_eq_getElem hi]
  rfl

/-- An in-bounds `nthRow` is a member of the store. -/
theorem nthRow_mem (store : Store) (i : Nat) (hi : i < store.length) :
    nthRow store i ∈ store := by
  unfold nthRow
  rw [List.getD_eq_getElem?_getD, List.getElem?_eq_getElem hi]
  exact List.getElem_mem hi

/-- Congruence for `List.flatMap`. -/
theorem flatMap_congr {α β : Type} {l : List α} {f g : α → List β}
    (h : ∀ a ∈ l, f a = g a) : l.flatMap f = l.flatMap g := by
  induction l with
  | nil => rfl
  | cons x xs ih =>
    simp only [List.flatMap_cons]
    rw [h x (by simp), ih (fun a ha => h a (by simp [ha]))]

/-- Restricting two rows of a well-formed store to the kept columns does not
change their scanned distance: the removed columns are identical across all
rows, so the two rows agree there. -/
theorem pairDistance_prunerKept (store : Store) (L : Nat) (hwf : storeWF store L)
    (hne : store ≠ []) (a b : List Symbol)
    (ha : a ∈ store.map Prod.snd) (hb : b ∈ store.map Prod.snd) (m : Option Nat) :
    pairDistance m ((prunerKept store).filterMap (fun c => a[c]?))
      ((prunerKept store).filterMap (fun c => b[c]?)) = pairDistance m a b := by
  have hLa : a.length = L := by
    rcases List.mem_map.mp ha with ⟨p, hp, rfl⟩
    exact hwf p hp
  have hLb : b.length = L := by
    rcases List.mem_map.mp hb with ⟨p, hp, rfl⟩
    exact hwf p hp
  have hk : prunerKept store =
      (List.range a.length).filter
        (fun c => !(columnIdentical (store.map Prod.snd) c)) := by
    rw [prunerKept, headD_length store L hwf hne, keptIndices, hLa]
  rw [hk]
  apply pairDistance_select
  · rw [hLa, hLb]
  · intro c hc
    have hid : columnIdentical (store.map Prod.snd) c = true := by
      cases hh : columnIdentical (store.map Prod.snd) c
      · rw [hh] at hc
        simp at hc
      · rfl
    exact (columnIdentical_iff _ c).mp hid a ha b hb

/-- Column pruning never changes any entry of the computed distance list,
for every threshold and every arrangement mode. -/
theorem compute_distances_pruned (store : Store) (L : Nat) (hwf : storeWF store L)
    (m : Option Nat) (mode : OutputMode) :
    compute_distances (remove_identical_columns store).2 m mode =
      compute_distances store m mode := by
  by_cases hne : store = []
  · subst hne
    cases mode <;> rfl
  · have key : ∀ i j, i < store.length → j < store.length →
        ((nthRow (remove_identical_columns store).2 i).1,
          (nthRow (remove_identical_columns store).2 j).1,
          pairDistance m (nthRow (remove_identical_columns store).2 i).2
            (nthRow (remove_identical_columns store).2 j).2) =
        ((nthRow store i).1, (nthRow store j).1,
          pairDistance m (nthRow store i).2 (nthRow store j).2) := by
      intro i j hi hj
      rw [remove_identical_columns_snd store, nthRow_map _ _ _ hi, nthRow_map _ _ _ hj]
      refine congrArg (fun d => ((nthRow store i).1, (nthRow store j).1, d)) ?_
      exact pairDistance_prunerKept store L hwf hne _ _
        (List.mem_map.mpr ⟨nthRow store i, nthRow_mem store i hi, rfl⟩)
        (List.mem_map.mpr ⟨nthRow store j, nthRow_mem store j hj, rfl⟩) m
    have hn : (remove_identical_columns store).2.length = store.length := by
      rw [remove_identical_columns_snd]
      simp
    cases mode with
    | lowerTriangle =>
      simp only [compute_distances, hn]
      apply flatMap_congr
      intro i hi
      apply List.map_congr_left
      intro j hj
      exact key i j (List.mem_range.mp hi)
        (lt_trans (List.mem_range.mp hj) (List.mem_range.mp hi))
    | full =>
      simp only [compute_distances, hn]
      apply flatMap_congr
      intro i hi
      apply List.map_congr_left
      intro j hj
      exact key i j (List.mem_range.mp hi) (List.mem_range.mp hj)

/-! ## Idempotence of the Column Pruner -/

/-- Pruning a well-formed store leaves no identical column behind, so a
second application removes nothing and changes nothing. -/
theorem remove_identical_columns_idem (store : Store) (L : Nat)
    (hwf : storeWF store L) :
    remove_identical_columns ((remove_identical_columns store).2) =
      (0, (remove_identical_columns store).2) := by
  by_cases hne : store = []
  · subst hne; rfl
  · have hL0 : ((store.headD ("", [])).2).length = L := headD_length store L hwf hne
    have hkeptdef : prunerKept store =
        (List.range L).filter
          (fun c => !(columnIdentical (store.map Prod.snd) c)) := by
      rw [prunerKept, hL0]; rfl
    have hkb : ∀ i ∈ prunerKept store, i < L := by
      intro i hi
      rw [hkeptdef] at hi
      exact List.mem_range.mp (List.mem_filter.mp hi).1
    have hrowlen : ∀ r ∈ store.map Prod.snd, r.length = L := by
      intro r hr
      rcases List.mem_map.mp hr with ⟨p, hp, rfl⟩
      exact hwf p hp
    have hselLen : ∀ r ∈ store.map Prod.snd,
        ((prunerKept store).filterMap (fun c => r[c]?)).length =
          (prunerKept store).length := by
      intro r hr
      exact filterMap_getElem?_length r (prunerKept store)
        (fun i hi => by rw [hrowlen r hr]; exact hkb i hi)
    have hwf' : storeWF (remove_identical_columns store).2
        (prunerKept store).length := by
      intro p hp
      rw [remove_identical_columns_snd] at hp
      rcases List.mem_map.mp hp with ⟨q, hq, rfl⟩
      exact hselLen q.2 (List.mem_map.mpr ⟨q, hq, rfl⟩)
    have hne' : (remove_identical_columns store).2 ≠ [] := by
      rw [remove_identical_columns_snd]
      cases store with
      | nil => exact absurd rfl hne
      | cons q qs => simp
    have hL0' : (((remove_identical_columns store).2.headD ("", [])).2).length =
        (prunerKept store).length :=
      headD_length _ _ hwf' hne'
    have hsel? : ∀ r ∈ store.map Prod.snd, ∀ (c' k : Nat),
        (prunerKept store)[c']? = some k →
        ((prunerKept store).filterMap (fun c => r[c]?))[c']? = r[k]? := by
      intro r hr c' k hk
      rw [filterMap_getElem?_getElem? r (prunerKept store)
        (fun i hi => by rw [hrowlen r hr]; exact hkb i hi) c', hk]
      rfl
    have hnoid : ∀ c', c' < (prunerKept store).length →
        columnIdentical ((remove_identical_columns store).2.map Prod.snd) c' =
          false := by
      intro c' hc'
      obtain ⟨k, hk⟩ : ∃ k, (prunerKept store)[c']? = some k :=
        ⟨(prunerKept store)[c'], List.getElem?_eq_getElem hc'⟩
      have hkmem : k ∈ prunerKept store := List.getElem?_mem hk
      have hkident : columnIdentical (store.map Prod.snd) k = false := by
        rw [hkeptdef] at hkmem
        have h2 := (List.mem_filter.mp hkmem).2
        cases hh : columnIdentical (store.map Prod.snd) k
        · rfl
        · rw [hh] at h2; simp at h2
      rw [columnIdentical_eq_false] at hkident ⊢
      intro hall
      apply hkident
      intro a ha b hb
      have ha' : (prunerKept store).filterMap (fun c => a[c]?) ∈
          (remove_identical_columns store).2.map Prod.snd := by
        rw [remove_identical_columns_snd, List.map_map]
        rcases List.mem_map.mp ha with ⟨p, hp, rfl⟩
        exact List.mem_map.mpr ⟨p, hp, rfl⟩
      have hb' : (prunerKept store).filterMap (fun c => b[c]?) ∈
          (remove_identical_columns store).2.map Prod.snd := by
        rw [remove_identical_columns_snd, List.map_map]
        rcases List.mem_map.mp hb with ⟨p, hp, rfl⟩
        exact List.mem_map.mpr ⟨p, hp, rfl⟩
      have hput := hall _ ha' _ hb'
      rw [hsel? a ha c' k hk, hsel? b hb c' k hk] at hput
      exact hput
    have hfst0 :
        (remove_identical_columns ((remove_identical_columns store).2)).1 = 0 := by
      rw [remove_identical_columns_fst, hL0', List.countP_eq_zero]
      intro c' hc'
      rw [hnoid c' (List.mem_range.mp hc')]
      simp
    have hsnd' :
        (remove_identical_columns ((remove_identical_columns store).2)).2 =
          (remove_identical_columns store).2 := by
      rw [remove_identical_columns_snd ((remove_identical_columns store).2)]
      have hkept' : prunerKept ((remove_identical_columns store).2) =
          List.range (prunerKept store).length := by
        rw [prunerKept, hL0', keptIndices]
        apply List.filter_eq_self.mpr
        intro c' hc'
        rw [hnoid c' (List.mem_range.mp hc')]
        rfl
      rw [hkept']
      have hid : ∀ p ∈ (remove_identical_columns store).2,
          (p.1, (List.range (prunerKept store).length).filterMap
            (fun c => p.2[c]?)) = p := by
        intro p hp
        have hlen : p.2.length = (prunerKept store).length := hwf' p hp
        rw [← hlen, filterMap_getElem?_range]
      rw [List.map_congr_left hid, List.map_id']
    rw [Prod.ext_iff]
    exact ⟨hfst0, hsnd'⟩

end Distle

namespace Distle

/-! ## Membership and shape of the computed entry list -/

/-- The entries of full mode are exactly those of all ordered index pairs. -/
theorem mem_compute_full (store : Store) (m : Option Nat) (x y : String) (d : Nat) :
    (x, y, d) ∈ compute_distances store m OutputMode.full ↔
      ∃ i j, i < store.length ∧ j < store.length ∧
        x = (nthRow store i).1 ∧ y = (nthRow store j).1 ∧
        d = pairDistance m (nthRow store i).2 (nthRow store j).2 := by
  simp only [compute_distances, List.mem_flatMap, List.mem_map, List.mem_range]
  constructor
  · rintro ⟨i, hi, j, hj, heq⟩
    refine ⟨i, j, hi, hj, ?_, ?_, ?_⟩
    · exact congrArg (fun e => e.1) heq.symm
    · exact congrArg (fun e => e.2.1) heq.symm
    · exact congrArg (fun e => e.2.2) heq.symm
  · rintro ⟨i, j, hi, hj, rfl, rfl, rfl⟩
    exact ⟨i, hi, j, hj, rfl⟩

/-- The entries of lower-triangle mode are exactly those of the index pairs
`(i, j)` with `j < i`. -/
theorem mem_compute_lt (store : Store) (m : Option Nat) (x y : String) (d : Nat) :
    (x, y, d) ∈ compute_distances store m OutputMode.lowerTriangle ↔
      ∃ i j, i < store.length ∧ j < i ∧
        x = (nthRow store i).1 ∧ y = (nthRow store j).1 ∧
        d = pairDistance m (nthRow store i).2 (nthRow store j).2 := by
  simp only [compute_distances, List.mem_flatMap, List.mem_map, List.mem_range]
  constructor
  · rintro ⟨i, hi, j, hj, heq⟩
    refine ⟨i, j, hi, hj, ?_, ?_, ?_⟩
    · exact congrArg (fun e => e.1) heq.symm
    · exact congrArg (fun e => e.2.1) heq.symm
    · exact congrArg (fun e => e.2.2) heq.symm
  · rintro ⟨i, j, hi, hj, rfl, rfl, rfl⟩
    exact ⟨i, hi, j, hj, rfl⟩

/-- Gauss sum over a `List.range`. -/
theorem sum_range_id_two (n : Nat) :
    ((List.range n).map (fun i => i)).sum * 2 = n * (n - 1) := by
  induction n with
  | zero => rfl
  | succ k ih =>
    rw [List.range_succ, List.map_append, List.sum_append]
    simp only [List.map_cons, List.map_nil, List.sum_cons, List.sum_nil]
    cases k with
    | zero => simp
    | succ k' =>
      rw [Nat.add_mul, ih]
      simp only [Nat.add_sub_cancel]
      ring

/-- The lower-triangle entry list has `n * (n - 1) / 2` entries. -/
theorem length_lowerTriangle (store : Store) (m : Option Nat) :
    (compute_distances store m OutputMode.lowerTriangle).length =
      store.length * (store.length - 1) / 2 := by
  simp only [compute_distances]
  rw [List.length_flatMap]
  have h1 : List.map (List.length ∘ (fun i =>
      (List.range i).map (fun j =>
        ((nthRow store i).1, (nthRow store j).1,
          pairDistance m (nthRow store i).2 (nthRow store j).2))))
      (List.range store.length) = (List.range store.length).map (fun i => i) := by
    apply List.map_congr_left
    intro i _
    simp
  rw [h1, eq_comm]
  exact Nat.div_eq_of_eq_mul_left (by norm_num) (sum_range_id_two store.length).symm

/-- Full-mode entries are the lower-triangle entries, their mirror images,
and the zero diagonal. -/
theorem full_eq_mirrored (store : Store) (m : Option Nat) (x y : String) (d : Nat) :
    (x, y, d) ∈ compute_distances store m OutputMode.full ↔
      ((x, y, d) ∈ compute_distances store m OutputMode.lowerTriangle ∨
       (y, x, d) ∈ compute_distances store m OutputMode.lowerTriangle ∨
       ∃ i, i < store.length ∧ x = (nthRow store i).1 ∧ y = (nthRow store i).1 ∧
         d = 0) := by
  rw [mem_compute_full, mem_compute_lt, mem_compute_lt]
  constructor
  · rintro ⟨i, j, hi, hj, rfl, rfl, rfl⟩
    rcases Nat.lt_trichotomy j i with hji | heq | hij
    · exact Or.inl ⟨i, j, hi, hji, rfl, rfl, rfl⟩
    · subst heq
      exact Or.inr (Or.inr ⟨j, hj, rfl, rfl, pairDistance_self _ m⟩)
    · exact Or.inr (Or.inl ⟨j, i, hj, hij, rfl, rfl, pairDistance_comm _ _ m⟩)
  · rintro (⟨i, j, hi, hj, rfl, rfl, rfl⟩ | ⟨i, j, hi, hj, h1, h2, rfl⟩ |
      ⟨i, hi, rfl, h2, rfl⟩)
    · exact ⟨i, j, hi, lt_trans hj hi, rfl, rfl, rfl⟩
    · exact ⟨j, i, lt_trans hj hi, hi, h2, h1, pairDistance_comm _ _ m⟩
    · exact ⟨i, i, hi, hi, rfl, h2, (pairDistance_self _ m).symm⟩

/-! ## Characterizations of the two parsers -/

/-- A successfully parsed FASTA store is nonempty with equal-length rows. -/
theorem read_and_parse_fasta_wf (lines : List String) (fmt : InputFormat)
    (store : Store) (h : read_and_parse_fasta lines fmt = Except.ok store) :
    store ≠ [] ∧
      ∀ p ∈ store, p.2.length = ((store.headD ("", [])).2).length := by
  unfold read_and_parse_fasta at h
  split_ifs at h with h1 h2 h3
  rw [Except.ok.injEq] at h
  subst h
  rw [List.all_eq_true] at h3
  refine ⟨?_, ?_⟩
  · intro hnil
    rw [hnil] at h1
    exact h1 rfl
  · intro p hp
    exact decide_eq_true_iff.mp (h3 p hp)

/-- The FASTA parser succeeds exactly when there is at least one record, no
identifier is empty, and every record's length matches the first one's. -/
theorem read_and_parse_fasta_ok_iff (lines : List String) (fmt : InputFormat) :
    (∃ s, read_and_parse_fasta lines fmt = Except.ok s) ↔
      (fastaRecords lines ≠ [] ∧
       (∀ r ∈ fastaRecords lines, r.1 ≠ "") ∧
       (∀ r ∈ fastaRecords lines,
          r.2.length = ((fastaRecords lines).headD ("", [])).2.length)) := by
  unfold read_and_parse_fasta
  split_ifs with h1 h2 h3
  · simp only [List.isEmpty_iff] at h1
    simp [h1]
  · rw [List.any_eq_true] at h2
    obtain ⟨r, hr, hre⟩ := h2
    rw [decide_eq_true_iff] at hre
    constructor
    · rintro ⟨s, hs⟩
      cases hs
    · rintro ⟨-, hids, -⟩
      exact absurd hre (hids r hr)
  · rw [List.all_eq_true] at h3
    constructor
    · rintro -
      refine ⟨?_, ?_, ?_⟩
      · intro hnil
        rw [hnil] at h1
        exact h1 rfl
      · intro r hr
        by_contra hre
        exact h2 (List.any_eq_true.mpr ⟨r, hr, decide_eq_true hre⟩)
      · intro r hr
        exact decide_eq_true_iff.mp (h3 r hr)
    · rintro -
      exact ⟨fastaRecords lines, rfl⟩
  · constructor
    · rintro ⟨s, hs⟩
      cases hs
    · rintro ⟨-, -, hlen⟩
      exact absurd (List.all_eq_true.mpr (fun r hr => decide_eq_true (hlen r hr))) h3

/-- A successfully parsed tabular store is nonempty with equal-length rows. -/
theorem read_and_parse_tabular_wf (lines : List String) (fmt : InputFormat)
    (sep : Char) (skipHeader : Bool) (store : Store)
    (h : read_and_parse_tabular lines fmt sep skipHeader = Except.ok store) :
    store ≠ [] ∧
      ∀ p ∈ store, p.2.length = ((store.headD ("", [])).2).length := by
  unfold read_and_parse_tabular at h
  split_ifs at h with h1 h2 h3 h4
  rw [Except.ok.injEq] at h
  subst h
  rw [List.all_eq_true] at h4
  refine ⟨?_, ?_⟩
  · intro hnil
    have hlen0 := congrArg List.length hnil
    simp only [tabularStore, List.length_map, List.length_nil] at hlen0
    have hfnil : tabularFields lines sep skipHeader = [] :=
      List.length_eq_zero.mp hlen0
    rw [hfnil] at h1
    exact h1 rfl
  · intro p hp
    exact decide_eq_true_iff.mp (h4 p hp)

/-- The tabular parser succeeds exactly when there is at least one data line,
every line has a separator, no identifier is empty, and every row's field
count matches the first one's. -/
theorem read_and_parse_tabular_ok_iff (lines : List String) (fmt : InputFormat)
    (sep : Char) (skipHeader : Bool) :
    (∃ s, read_and_parse_tabular lines fmt sep skipHeader = Except.ok s) ↔
      (tabularFields lines sep skipHeader ≠ [] ∧
       (∀ f ∈ tabularFields lines sep skipHeader, 2 ≤ f.length) ∧
       (∀ f ∈ tabularFields lines sep skipHeader, f.headD [] ≠ []) ∧
       (∀ r ∈ tabularStore lines sep skipHeader,
          r.2.length =
            ((tabularStore lines sep skipHeader).headD ("", [])).2.length)) := by
  unfold read_and_parse_tabular
  split_ifs with h1 h2 h3 h4
  · simp only [List.isEmpty_iff] at h1
    simp [h1]
  · rw [List.any_eq_true] at h2
    obtain ⟨f, hf, hfe⟩ := h2
    rw [decide_eq_true_iff] at hfe
    constructor
    · rintro ⟨s, hs⟩
      cases hs
    · rintro ⟨-, hlen2, -, -⟩
      exact absurd (hlen2 f hf) (by omega)
  · rw [List.any_eq_true] at h3
    obtain ⟨f, hf, hfe⟩ := h3
    rw [decide_eq_true_iff] at hfe
    constructor
    · rintro ⟨s, hs⟩
      cases hs
    · rintro ⟨-, -, hids, -⟩
      exact absurd hfe (hids f hf)
  · rw [List.all_eq_true] at h4
    constructor
    · rintro -
      refine ⟨?_, ?_, ?_, ?_⟩
      · intro hnil
        rw [hnil] at h1
        exact h1 rfl
      · intro f hf
        by_contra hfl
        exact h2 (List.any_eq_true.mpr ⟨f, hf, decide_eq_true (by omega)⟩)
      · intro f hf
        by_contra hfe
        exact h3 (List.any_eq_true.mpr ⟨f, hf, decide_eq_true hfe⟩)
      · intro r hr
        exact decide_eq_true_iff.mp (h4 r hr)
    · rintro -
      exact ⟨tabularStore lines sep skipHeader, rfl⟩
  · constructor
    · rintro ⟨s, hs⟩
      cases hs
    · rintro ⟨-, -, -, hlen⟩
      exact absurd (List.all_eq_true.mpr
        (fun r hr => decide_eq_true (hlen r hr))) h4

end Distle

namespace Distle

/-! ## The claimed properties -/

/-- The three-sample example store of the spec: rows X, Y, Z with four
positions each, Y and Z identical, X differing from both at two positions. -/
def exampleStoreXYZ : Store :=
  [("X", ["0", "0", "0", "0"]), ("Y", ["1", "1", "0", "0"]), ("Z", ["1", "1", "0", "0"])]

/-- A representative option record of `Cli` (all defaults of `src/main.rs`). -/
def exampleCli : Cli :=
  ⟨"-", "-", InputFormat.fasta, OutputFormat.tabular, '\t', '\t',
    OutputMode.lowerTriangle, none, false, false⟩

/-- Claim C1: with no maxdist threshold, every reported distance is exactly
the Hamming distance of the pair of sequences — the count of positions at
which they differ — and the FASTA example `A = ACGT`, `B = ACGA` yields the
single entry `(B, A, 1)`. -/
theorem claim1_no_maxdist_reports_hamming :
    (∀ (a b : List Symbol), pairDistance none a b = hammingDistance a b) ∧
    (∀ (store : Store) (mode : OutputMode) (x y : String) (d : Nat),
      (x, y, d) ∈ compute_distances store none mode →
      ∃ i j, i < store.length ∧ j < store.length ∧
        x = (nthRow store i).1 ∧ y = (nthRow store j).1 ∧
        d = hammingDistance (nthRow store i).2 (nthRow store j).2) ∧
    compute_distances [("A", ["A", "C", "G", "T"]), ("B", ["A", "C", "G", "A"])]
      none OutputMode.lowerTriangle = [("B", "A", 1)] := by
  refine ⟨fun a b => pairDistance_none_eq a b, ?_, by decide⟩
  intro store mode x y d hmem
  cases mode with
  | lowerTriangle =>
    obtain ⟨i, j, hi, hj, hx, hy, hd⟩ := (mem_compute_lt store none x y d).mp hmem
    exact ⟨i, j, hi, lt_trans hj hi, hx, hy, hd.trans (pairDistance_none_eq _ _)⟩
  | full =>
    obtain ⟨i, j, hi, hj, hx, hy, hd⟩ := (mem_compute_full store none x y d).mp hmem
    exact ⟨i, j, hi, hj, hx, hy, hd.trans (pairDistance_none_eq _ _)⟩

/-- Witness for C1 at the FASTA example pair. -/
theorem claim1_witness :
    ∃ i j, i < ([("A", ["A", "C", "G", "T"]), ("B", ["A", "C", "G", "A"])] : Store).length ∧
      j < ([("A", ["A", "C", "G", "T"]), ("B", ["A", "C", "G", "A"])] : Store).length ∧
      "B" = (nthRow [("A", ["A", "C", "G", "T"]), ("B", ["A", "C", "G", "A"])] i).1 ∧
      "A" = (nthRow [("A", ["A", "C", "G", "T"]), ("B", ["A", "C", "G", "A"])] j).1 ∧
      1 = hammingDistance
        (nthRow [("A", ["A", "C", "G", "T"]), ("B", ["A", "C", "G", "A"])] i).2
        (nthRow [("A", ["A", "C", "G", "T"]), ("B", ["A", "C", "G", "A"])] j).2 :=
  claim1_no_maxdist_reports_hamming.2.1
    [("A", ["A", "C", "G", "T"]), ("B", ["A", "C", "G", "A"])]
    OutputMode.lowerTriangle "B" "A" 1 (by decide)

/-- Claim C2: for a store of equal-length sequences, pruning identical
columns first never changes any entry of the computed distance list, for
every maxdist threshold and every output mode. -/
theorem claim2_pruning_preserves_distances (store : Store) (L : Nat)
    (hwf : storeWF store L) :
    ∀ (maxdist : Option Nat) (mode : OutputMode),
      compute_distances (remove_identical_columns store).2 maxdist mode =
        compute_distances store maxdist mode :=
  fun m mode => compute_distances_pruned store L hwf m mode

/-- Witness for C2 at the three-sample example store. -/
theorem claim2_witness :
    compute_distances (remove_identical_columns exampleStoreXYZ).2 none
        OutputMode.lowerTriangle =
      compute_distances exampleStoreXYZ none OutputMode.lowerTriangle :=
  claim2_pruning_preserves_distances exampleStoreXYZ 4 (by unfold storeWF; decide) none
    OutputMode.lowerTriangle

/-- Claim C3: the maxdist early exit is sound.  A reported value `d ≤ T` is
the exact Hamming distance (so the true distance is also `≤ T`); a pair
whose true distance exceeds `T` is reported as `T + 1` — never a value
below `T` and never a silently wrong smaller exact value; and any entry
reported at threshold `T` with value `≤ T` equals the exact Hamming
distance of its pair of rows. -/
theorem claim3_maxdist_sound :
    (∀ (a b : List Symbol) (T : Nat),
      pairDistance (some T) a b ≤ T →
        pairDistance (some T) a b = hammingDistance a b ∧
        hammingDistance a b ≤ T) ∧
    (∀ (a b : List Symbol) (T : Nat),
      T < hammingDistance a b →
        pairDistance (some T) a b = T + 1 ∧
        ¬(pairDistance (some T) a b < T)) ∧
    (∀ (store : Store) (mode : OutputMode) (T : Nat) (x y : String) (d : Nat),
      (x, y, d) ∈ compute_distances store (some T) mode → d ≤ T →
      ∃ i j, i < store.length ∧ j < store.length ∧
        d = hammingDistance (nthRow store i).2 (nthRow store j).2) := by
  refine ⟨?_, ?_, ?_⟩
  · intro a b T h
    have hs := pairDistance_some_eq a b T
    rw [hs] at h ⊢
    omega
  · intro a b T h
    have hs := pairDistance_some_eq a b T
    rw [hs]
    omega
  · intro store mode T x y d hmem hle
    cases mode with
    | lowerTriangle =>
      obtain ⟨i, j, hi, hj, -, -, hd⟩ := (mem_compute_lt store (some T) x y d).mp hmem
      refine ⟨i, j, hi, lt_trans hj hi, ?_⟩
      have hs := pairDistance_some_eq (nthRow store i).2 (nthRow store j).2 T
      omega
    | full =>
      obtain ⟨i, j, hi, hj, -, -, hd⟩ := (mem_compute_full store (some T) x y d).mp hmem
      refine ⟨i, j, hi, hj, ?_⟩
      have hs := pairDistance_some_eq (nthRow store i).2 (nthRow store j).2 T
      omega

/-- Witness for C3: a near pair (distance 1 at threshold 2) is exact, and a
far pair (distance 3 at threshold 1) is capped at 2. -/
theorem claim3_witness :
    (pairDistance (some 2) ["A", "C", "G", "T"] ["A", "C", "G", "A"] =
        hammingDistance ["A", "C", "G", "T"] ["A", "C", "G", "A"] ∧
      hammingDistance ["A", "C", "G", "T"] ["A", "C", "G", "A"] ≤ 2) ∧
    (pairDistance (some 1) ["A", "C", "G"] ["T", "G", "C"] = 1 + 1 ∧
      ¬(pairDistance (some 1) ["A", "C", "G"] ["T", "G", "C"] < 1)) :=
  ⟨claim3_maxdist_sound.1 ["A", "C", "G", "T"] ["A", "C", "G", "A"] 2 (by decide),
   claim3_maxdist_sound.2.1 ["A", "C", "G"] ["T", "G", "C"] 1 (by decide)⟩

/-- Claim C4: the reported distance is symmetric in the pair, and the
full-mode entry set is exactly the lower-triangle entry set together with
its mirror image across the diagonal and the zero diagonal itself. -/
theorem claim4_symmetry :
    (∀ (m : Option Nat) (a b : List Symbol),
      pairDistance m a b = pairDistance m b a) ∧
    (∀ (store : Store) (m : Option Nat) (x y : String) (d : Nat),
      (x, y, d) ∈ compute_distances store m OutputMode.full ↔
        ((x, y, d) ∈ compute_distances store m OutputMode.lowerTriangle ∨
         (y, x, d) ∈ compute_distances store m OutputMode.lowerTriangle ∨
         ∃ i, i < store.length ∧ x = (nthRow store i).1 ∧
           y = (nthRow store i).1 ∧ d = 0)) :=
  ⟨fun m a b => pairDistance_comm a b m, full_eq_mirrored⟩

/-- Witness for C4 at a concrete asymmetric-looking pair. -/
theorem claim4_witness :
    pairDistance none ["A", "C"] ["G", "C"] = pairDistance none ["G", "C"] ["A", "C"] :=
  claim4_symmetry.1 none ["A", "C"] ["G", "C"]

/-- Claim C7: every sample is at distance 0 from itself, and full mode
produces the corresponding zero diagonal entry. -/
theorem claim7_diagonal_zero (store : Store) (m : Option Nat) (i : Nat)
    (hi : i < store.length) :
    pairDistance m (nthRow store i).2 (nthRow store i).2 = 0 ∧
    ((nthRow store i).1, (nthRow store i).1, 0) ∈
      compute_distances store m OutputMode.full := by
  refine ⟨pairDistance_self _ m, ?_⟩
  exact (mem_compute_full store m _ _ 0).mpr
    ⟨i, i, hi, hi, rfl, rfl, (pairDistance_self _ m).symm⟩

/-- Witness for C7 at the example store's first row. -/
theorem claim7_witness :
    pairDistance none (nthRow exampleStoreXYZ 0).2 (nthRow exampleStoreXYZ 0).2 = 0 ∧
    ((nthRow exampleStoreXYZ 0).1, (nthRow exampleStoreXYZ 0).1, 0) ∈
      compute_distances exampleStoreXYZ none OutputMode.full :=
  claim7_diagonal_zero exampleStoreXYZ none 0 (by decide)

/-- Claim C8: lower-triangle mode enumerates exactly the pairs `(i, j)` with
`j < i` in insertion order — `n * (n - 1) / 2` entries, outer loop by row
index ascending, inner loop by column index ascending — and the X, Y, Z
example yields exactly the entries `(Y, X, 2)`, `(Z, X, 2)`, `(Z, Y, 0)`. -/
theorem claim8_lower_triangle_enumeration :
    (∀ (store : Store) (m : Option Nat),
      (compute_distances store m OutputMode.lowerTriangle).length =
        store.length * (store.length - 1) / 2) ∧
    (∀ (store : Store) (m : Option Nat) (x y : String) (d : Nat),
      (x, y, d) ∈ compute_distances store m OutputMode.lowerTriangle ↔
        ∃ i j, i < store.length ∧ j < i ∧ x = (nthRow store i).1 ∧
          y = (nthRow store j).1 ∧
          d = pairDistance m (nthRow store i).2 (nthRow store j).2) ∧
    (∀ (store : Store) (m : Option Nat),
      compute_distances store m OutputMode.lowerTriangle =
        (List.range store.length).flatMap (fun i => (List.range i).map (fun j =>
          ((nthRow store i).1, (nthRow store j).1,
            pairDistance m (nthRow store i).2 (nthRow store j).2)))) ∧
    compute_distances exampleStoreXYZ none OutputMode.lowerTriangle =
      [("Y", "X", 2), ("Z", "X", 2), ("Z", "Y", 0)] :=
  ⟨length_lowerTriangle, mem_compute_lt, fun _ _ => rfl, by decide⟩

/-- Witness for C8: the entry count at the example store. -/
theorem claim8_witness :
    (compute_distances exampleStoreXYZ none OutputMode.lowerTriangle).length =
      exampleStoreXYZ.length * (exampleStoreXYZ.length - 1) / 2 :=
  claim8_lower_triangle_enumeration.1 exampleStoreXYZ none

end Distle

namespace Distle

/-- Claim C5: the Column Pruner removes exactly the position indices at which
every sequence holds the same symbol, returns the count of removed
positions (so removed + kept = L), keeps the row count and the row
identities in order, shortens every row by the same positions, and keeps
the remaining columns in their original relative order. -/
theorem claim5_pruner_contract (store : Store) (L : Nat) (hwf : storeWF store L)
    (hne : store ≠ []) :
    (remove_identical_columns store).1 =
      ((List.range L).filter
        (fun c => columnIdentical (store.map Prod.snd) c)).length ∧
    (remove_identical_columns store).1 + (prunerKept store).length = L ∧
    (remove_identical_columns store).2.map Prod.fst = store.map Prod.fst ∧
    (remove_identical_columns store).2.length = store.length ∧
    (remove_identical_columns store).2 =
      store.map (fun p => (p.1, (prunerKept store).filterMap (fun c => p.2[c]?))) ∧
    (∀ q ∈ (remove_identical_columns store).2,
      q.2.length = (prunerKept store).length) ∧
    List.Pairwise (· < ·) (prunerKept store) ∧
    (∀ c : Nat, c ∈ prunerKept store ↔
      c < L ∧ ¬∀ a ∈ store.map Prod.snd, ∀ b ∈ store.map Prod.snd,
        a[c]? = b[c]?) := by
  have hL0 : ((store.headD ("", [])).2).length = L := headD_length store L hwf hne
  have hkeptdef : prunerKept store =
      (List.range L).filter
        (fun c => !(columnIdentical (store.map Prod.snd) c)) := by
    rw [prunerKept, hL0]; rfl
  have hkb : ∀ i ∈ prunerKept store, i < L := by
    intro i hi
    rw [hkeptdef] at hi
    exact List.mem_range.mp (List.mem_filter.mp hi).1
  refine ⟨?_, ?_, ?_, ?_, rfl, ?_, ?_, ?_⟩
  · rw [remove_identical_columns_fst, hL0, List.countP_eq_length_filter]
  · rw [remove_identical_columns_fst, hL0, hkeptdef,
      ← List.countP_eq_length_filter]
    have h := countP_not_length
      (fun c => columnIdentical (store.map Prod.snd) c) (List.range L)
    simpa using h
  · rw [remove_identical_columns_snd, List.map_map]
    rfl
  · rw [remove_identical_columns_snd]
    simp
  · intro q hq
    rw [remove_identical_columns_snd] at hq
    rcases List.mem_map.mp hq with ⟨p, hp, rfl⟩
    exact filterMap_getElem?_length p.2 (prunerKept store)
      (fun i hi => by rw [hwf p hp]; exact hkb i hi)
  · rw [hkeptdef]
    exact List.Pairwise.sublist (List.filter_sublist _) (List.pairwise_lt_range L)
  · intro c
    rw [hkeptdef, List.mem_filter, List.mem_range]
    constructor
    · rintro ⟨hcL, hcne⟩
      refine ⟨hcL, ?_⟩
      intro hall
      rw [(columnIdentical_iff _ c).mpr hall] at hcne
      simp at hcne
    · rintro ⟨hcL, hnall⟩
      refine ⟨hcL, ?_⟩
      cases hh : columnIdentical (store.map Prod.snd) c
      · rfl
      · exact absurd ((columnIdentical_iff _ c).mp hh) hnall

/-- Witness for C5 at the three-sample example store. -/
theorem claim5_witness :
    (remove_identical_columns exampleStoreXYZ).1 =
      ((List.range 4).filter
        (fun c => columnIdentical (exampleStoreXYZ.map Prod.snd) c)).length ∧
    (remove_identical_columns exampleStoreXYZ).1 +
      (prunerKept exampleStoreXYZ).length = 4 ∧
    (remove_identical_columns exampleStoreXYZ).2.map Prod.fst =
      exampleStoreXYZ.map Prod.fst ∧
    (remove_identical_columns exampleStoreXYZ).2.length = exampleStoreXYZ.length ∧
    (remove_identical_columns exampleStoreXYZ).2 =
      exampleStoreXYZ.map (fun p =>
        (p.1, (prunerKept exampleStoreXYZ).filterMap (fun c => p.2[c]?))) ∧
    (∀ q ∈ (remove_identical_columns exampleStoreXYZ).2,
      q.2.length = (prunerKept exampleStoreXYZ).length) ∧
    List.Pairwise (· < ·) (prunerKept exampleStoreXYZ) ∧
    (∀ c : Nat, c ∈ prunerKept exampleStoreXYZ ↔
      c < 4 ∧ ¬∀ a ∈ exampleStoreXYZ.map Prod.snd,
        ∀ b ∈ exampleStoreXYZ.map Prod.snd, a[c]? = b[c]?) :=
  claim5_pruner_contract exampleStoreXYZ 4 (by unfold storeWF; decide)
    (by decide)

/-- Claim C6: the Column Pruner is idempotent — a second application removes
zero columns and leaves the store unchanged. -/
theorem claim6_pruner_idempotent (store : Store) (L : Nat) (hwf : storeWF store L) :
    (remove_identical_columns ((remove_identical_columns store).2)).1 = 0 ∧
    (remove_identical_columns ((remove_identical_columns store).2)).2 =
      (remove_identical_columns store).2 := by
  have h := remove_identical_columns_idem store L hwf
  constructor
  · rw [h]
  · rw [h]

/-- Witness for C6 at the three-sample example store. -/
theorem claim6_witness :
    (remove_identical_columns ((remove_identical_columns exampleStoreXYZ).2)).1 = 0 ∧
    (remove_identical_columns ((remove_identical_columns exampleStoreXYZ).2)).2 =
      (remove_identical_columns exampleStoreXYZ).2 :=
  claim6_pruner_idempotent exampleStoreXYZ 4 (by unfold storeWF; decide)

/-- Claim C9: each parser returns an error exactly when the input has no
records, a record's length disagrees with the first record's, or a line is
malformed (missing separator, empty identifier); every successfully
returned store is nonempty with all sequences of equal length. -/
theorem claim9_ingestion_errors :
    (∀ (lines : List String) (fmt : InputFormat) (store : Store),
      read_and_parse_fasta lines fmt = Except.ok store →
        store ≠ [] ∧
        ∀ p ∈ store, p.2.length = ((store.headD ("", [])).2).length) ∧
    (∀ (lines : List String) (fmt : InputFormat),
      (∃ s, read_and_parse_fasta lines fmt = Except.ok s) ↔
        (fastaRecords lines ≠ [] ∧
         (∀ r ∈ fastaRecords lines, r.1 ≠ "") ∧
         (∀ r ∈ fastaRecords lines,
            r.2.length = ((fastaRecords lines).headD ("", [])).2.length))) ∧
    (∀ (lines : List String) (fmt : InputFormat) (sep : Char) (sh : Bool)
        (store : Store),
      read_and_parse_tabular lines fmt sep sh = Except.ok store →
        store ≠ [] ∧
        ∀ p ∈ store, p.2.length = ((store.headD ("", [])).2).length) ∧
    (∀ (lines : List String) (fmt : InputFormat) (sep : Char) (sh : Bool),
      (∃ s, read_and_parse_tabular lines fmt sep sh = Except.ok s) ↔
        (tabularFields lines sep sh ≠ [] ∧
         (∀ f ∈ tabularFields lines sep sh, 2 ≤ f.length) ∧
         (∀ f ∈ tabularFields lines sep sh, f.headD [] ≠ []) ∧
         (∀ r ∈ tabularStore lines sep sh,
            r.2.length = ((tabularStore lines sep sh).headD ("", [])).2.length))) :=
  ⟨read_and_parse_fasta_wf, read_and_parse_fasta_ok_iff,
   read_and_parse_tabular_wf, read_and_parse_tabular_ok_iff⟩

/-- Witness for C9: a two-record FASTA input parses to a nonempty store of
equal-length sequences. -/
theorem claim9_witness :
    ([("A", ["A", "C"]), ("B", ["A", "G"])] : Store) ≠ [] ∧
    ∀ p ∈ ([("A", ["A", "C"]), ("B", ["A", "G"])] : Store),
      p.2.length =
        ((([("A", ["A", "C"]), ("B", ["A", "G"])] : Store).headD ("", [])).2).length :=
  claim9_ingestion_errors.1 [">A", "AC", ">B", "AG"] InputFormat.fasta
    [("A", ["A", "C"]), ("B", ["A", "G"])] rfl

/-- Claim C10: for every choice of command-line options, the pipeline of
`main` applies `remove_identical_columns` exactly once, unconditionally,
before `compute_distances`; there is no option disabling it, so the
reported distances are always those over the pruned store. -/
theorem claim10_pruning_unconditional (opts : Cli) (lines : List String)
    (store : Store) (h : ingest opts lines = Except.ok store) :
    runPipeline opts lines =
      Except.ok (compute_distances (remove_identical_columns store).2
        opts.maxdist opts.output_mode) := by
  unfold runPipeline
  rw [h]
  rfl

/-- Witness for C10 at a concrete FASTA run with the default options. -/
theorem claim10_witness :
    runPipeline exampleCli [">A", "AC", ">B", "AG"] =
      Except.ok (compute_distances
        (remove_identical_columns [("A", ["A", "C"]), ("B", ["A", "G"])]).2
        none OutputMode.lowerTriangle) :=
  claim10_pruning_unconditional exampleCli [">A", "AC", ">B", "AG"]
    [("A", ["A", "C"]), ("B", ["A", "G"])] rfl

end Distle
